import Mathlib

/-!
Verification of the Bulls and Cows entropy-based solver.

The repository holds two Python programs.  `Bulls_and_Cows_Computer_Guessing.py`
contains the solver core: a marking-based feedback scorer `compute_feedback`,
the candidate filter `filter_codes`, the Shannon-entropy estimator
`calculate_entropy`, and the entropy-maximizing search `find_best_guess` with
an early-exit optimization.  `Bulls_and_Cows_User_Guessing.py` contains a
second, multiset-counting feedback scorer, also named `compute_feedback`.

Codes (Python strings) are modelled as `List Char`, candidate lists as
`List (List Char)`.  Python floats are modelled as real numbers.  The two
places where the solver raises on an empty candidate list
(`possible_codes[0]`, and `math.log2(0)` in the early-exit test) are modelled
by an `Option` result of the search.  The `for i in range(4)` loops of the
scorer touch exactly the first four characters of both strings; they are
modelled by structural recursion over `take 4` of each string, which agrees
with the source on every input on which the source does not raise.
-/

namespace ComputerGuessing

/-- The first loop of `compute_feedback` in
`Bulls_and_Cows_Computer_Guessing.py` (lines 35-40): walk the two strings in
parallel; at each position where the guess digit equals the secret digit,
count one bull and mark the secret position with the sentinel `'x'` and the
guess position with the sentinel `'y'`.  Returns the marked secret list, the
marked guess list and the bull count. -/
def bullsPass : List Char → List Char → List Char × List Char × Nat
  | s :: ss, g :: gs =>
    if g = s then
      ('x' :: (bullsPass ss gs).1, 'y' :: (bullsPass ss gs).2.1,
        (bullsPass ss gs).2.2 + 1)
    else
      (s :: (bullsPass ss gs).1, g :: (bullsPass ss gs).2.1,
        (bullsPass ss gs).2.2)
  | ss, gs => (ss, gs, 0)

/-- `secret_digits[secret_digits.index(c)] = 'z'` (line 47 of the source):
replace the first occurrence of `c` with the sentinel `'z'`.  The source only
evaluates this under the guard `c in secret_digits`, so the first occurrence
exists there. -/
def markFirst : List Char → Char → List Char
  | [], _ => []
  | s :: ss, c => if s = c then 'z' :: ss else s :: markFirst ss c

/-- The second loop of `compute_feedback` (lines 43-47): for each guess
position not consumed by the bulls pass (not marked `'y'`), if that character
still occurs in the marked secret list, count one cow and consume the first
matching occurrence in the secret by overwriting it with `'z'`. -/
def cowsPass : List Char → List Char → Nat
  | _, [] => 0
  | sd, g :: gs =>
    if g ≠ 'y' ∧ g ∈ sd then cowsPass (markFirst sd g) gs + 1
    else cowsPass sd gs

/-- `compute_feedback` of `Bulls_and_Cows_Computer_Guessing.py` (lines
10-49): the marking-based scorer.  Both `for i in range(4)` loops read
exactly the first four characters of each string, modelled by `take 4`. -/
def compute_feedback (secret guess : List Char) : Nat × Nat :=
  let r := bullsPass (secret.take 4) (guess.take 4)
  (r.2.2, cowsPass r.1 r.2.1)

/-- `filter_codes` (lines 51-70): keep exactly the codes whose recomputed
feedback against the guess equals the observed `(bulls, cows)` pair.  The
source builds a fresh list by appending the retained codes in order, which is
`List.filter`. -/
def filter_codes (possible_codes : List (List Char)) (guess : List Char)
    (bulls cows : Nat) : List (List Char) :=
  possible_codes.filter fun code =>
    decide (compute_feedback code guess = (bulls, cows))

/-- `calculate_entropy` (lines 72-104): Shannon entropy of the feedback
partition a guess induces on the candidate list.  The source returns `0.0`
for an empty list, otherwise builds a feedback-to-count dictionary and sums
`-p * log2 p` over the counts; the dictionary's distinct keys are the
deduplicated feedback list, each key's count being the number of candidates
producing that feedback.  Python floats are modelled by `ℝ`. -/
noncomputable def calculate_entropy (possible_codes : List (List Char))
    (guess : List Char) : ℝ :=
  let fbs := possible_codes.map fun code => compute_feedback code guess
  let total : ℝ := (possible_codes.length : ℝ)
  if possible_codes.length = 0 then 0
  else
    (fbs.dedup.map fun f =>
      -((fbs.count f : ℝ) / total * Real.logb 2 ((fbs.count f : ℝ) / total))).sum

/-- The `for guess in all_codes` loop of `find_best_guess` (lines 126-134),
early exit included: update the running `(best_guess, max_entropy)` state
when the guess's entropy strictly exceeds the running maximum, then break as
soon as the running maximum is within `1e-10` of `log2(len(possible_codes))`. -/
noncomputable def searchLoop (possible_codes : List (List Char)) :
    List (List Char) → List Char × ℝ → List Char × ℝ
  | [], st => st
  | g :: gs, st =>
    let e := calculate_entropy possible_codes g
    let st2 := if e > st.2 then (g, e) else st
    if |st2.2 - Real.logb 2 (possible_codes.length : ℝ)| < 1e-10 then st2
    else searchLoop possible_codes gs st2

/-- The same loop with the early-exit `break` removed (used to settle the
early-exit equivalence property). -/
noncomputable def searchLoopNoExit (possible_codes : List (List Char)) :
    List (List Char) → List Char × ℝ → List Char × ℝ
  | [], st => st
  | g :: gs, st =>
    let e := calculate_entropy possible_codes g
    searchLoopNoExit possible_codes gs (if e > st.2 then (g, e) else st)

/-- `find_best_guess` (lines 106-136): start from
`best_guess = possible_codes[0]`, `max_entropy = -1`, and run the search
loop over `all_codes`.  On an empty candidate list the source raises
(`possible_codes[0]` is an `IndexError`), modelled by `none`. -/
noncomputable def find_best_guess (possible_codes all_codes : List (List Char)) :
    Option (List Char × ℝ) :=
  match possible_codes with
  | [] => none
  | c :: _ => some (searchLoop possible_codes all_codes (c, -1))

/-- `find_best_guess` with the early-exit break removed, the reference
implementation of the early-exit equivalence property. -/
noncomputable def find_best_guess_noexit (possible_codes all_codes : List (List Char)) :
    Option (List Char × ℝ) :=
  match possible_codes with
  | [] => none
  | c :: _ => some (searchLoopNoExit possible_codes all_codes (c, -1))

/-- The positions where guess and secret agree, as the list of their
characters (the digits the bulls pass consumes); used to relate the marking
scorer to multiset counting. -/
def matched (ss gs : List Char) : List Char :=
  ((ss.zip gs).filter fun p => p.1 == p.2).map Prod.fst

end ComputerGuessing

namespace UserGuessing

/-- `compute_feedback` of `Bulls_and_Cows_User_Guessing.py` (lines 13-38):
bulls are the positional matches over the zipped strings; `common` sums, over
the distinct guess characters, the smaller of the two occurrence counts; cows
are `common - bulls` (Python `int` subtraction, modelled by `Int`). -/
def compute_feedback (secret guess : List Char) : Nat × Int :=
  let bulls : Nat := (secret.zip guess).countP fun p => p.1 == p.2
  let common : Nat :=
    (guess.dedup.map fun d => min (secret.count d) (guess.count d)).sum
  (bulls, (common : Int) - (bulls : Int))

end UserGuessing

namespace ComputerGuessing

/-- Bulls plus the unconsumed guess positions never exceed the guess length:
every bull marks one guess position `'y'`. -/
theorem bullsPass_add_countP_le (ss gs : List Char) :
    (bullsPass ss gs).2.2 + (bullsPass ss gs).2.1.countP (fun c => c != 'y') ≤
      gs.length := by
  induction ss generalizing gs with
  | nil =>
    simpa [bullsPass] using
      List.countP_le_length (l := gs) (p := fun c => c != 'y')
  | cons s ss ih =>
    cases gs with
    | nil => simp [bullsPass]
    | cons g gs =>
      by_cases hg : g = s
      · have h := ih gs
        simp only [bullsPass, if_pos hg, List.countP_cons, List.length_cons]
        simp only [bne_self_eq_false, Bool.false_eq_true, if_false]
        omega
      · have h := ih gs
        simp only [bullsPass, if_neg hg, List.countP_cons, List.length_cons]
        by_cases hy : (g != 'y') = true <;> simp [hy] <;> omega

/-- Each cow consumes one unconsumed (non-`'y'`) guess position. -/
theorem cowsPass_le_countP (gs : List Char) :
    ∀ sd : List Char, cowsPass sd gs ≤ gs.countP (fun c => c != 'y') := by
  induction gs with
  | nil => intro sd; simp [cowsPass]
  | cons g gs ih =>
    intro sd
    by_cases hc : g ≠ 'y' ∧ g ∈ sd
    · have h := ih (markFirst sd g)
      have hgy : (g != 'y') = true := by simpa using hc.1
      simp only [cowsPass, if_pos hc, List.countP_cons, hgy, if_pos]
      omega
    · have h := ih sd
      simp only [cowsPass, if_neg hc, List.countP_cons]
      by_cases hy : (g != 'y') = true <;> simp [hy] <;> omega

/-- Bulls and cows together never exceed 4, for arbitrary inputs: the two
loops read only the first four guess positions, each bull consumes one and
each cow consumes another. -/
theorem compute_feedback_sum_le (secret guess : List Char) :
    (compute_feedback secret guess).1 + (compute_feedback secret guess).2 ≤ 4 := by
  have h1 := bullsPass_add_countP_le (secret.take 4) (guess.take 4)
  have h2 := cowsPass_le_countP (bullsPass (secret.take 4) (guess.take 4)).2.1
    (bullsPass (secret.take 4) (guess.take 4)).1
  have h3 : (guess.take 4).length ≤ 4 := by
    simp
  simp only [compute_feedback]
  omega

/-- C5: for 4-character digit strings `secret` and `guess`,
`compute_feedback` returns `(bulls, cows)` with `bulls ≤ 4`, `cows ≤ 4`, and
`bulls + cows ≤ 4` (the lower bounds hold because the counts are naturals). -/
theorem claim_C5 (secret guess : List Char) (_hs : secret.length = 4)
    (_hg : guess.length = 4) (_hsd : ∀ c ∈ secret, c.isDigit)
    (_hgd : ∀ c ∈ guess, c.isDigit) :
    (compute_feedback secret guess).1 ≤ 4 ∧
      (compute_feedback secret guess).2 ≤ 4 ∧
      (compute_feedback secret guess).1 + (compute_feedback secret guess).2 ≤ 4 := by
  have h := compute_feedback_sum_le secret guess
  omega

theorem claim_C5_witness :
    (['1', '2', '3', '4'].length = 4 ∧ ['1', '4', '3', '2'].length = 4) ∧
      ((compute_feedback ['1', '2', '3', '4'] ['1', '4', '3', '2']).1 ≤ 4 ∧
        (compute_feedback ['1', '2', '3', '4'] ['1', '4', '3', '2']).2 ≤ 4 ∧
        (compute_feedback ['1', '2', '3', '4'] ['1', '4', '3', '2']).1 +
          (compute_feedback ['1', '2', '3', '4'] ['1', '4', '3', '2']).2 ≤ 4) :=
  ⟨by decide,
    claim_C5 ['1', '2', '3', '4'] ['1', '4', '3', '2'] (by decide) (by decide)
      (by decide) (by decide)⟩

/-- C1: `filter_codes` retains exactly the candidates whose recomputed
feedback equals the observed feedback: membership in the output is
equivalent to membership in the input plus an exact feedback match. -/
theorem claim_C1 (C : List (List Char)) (g : List Char) (bulls cows : Nat)
    (D : List Char) :
    D ∈ filter_codes C g bulls cows ↔
      D ∈ C ∧ compute_feedback D g = (bulls, cows) := by
  simp [filter_codes, List.mem_filter]

/-- C6: filtering returns a sublist of the input (same relative order, no
additions), so the candidate list never regrows; the input list itself is a
value that the pure `filter_codes` cannot mutate. -/
theorem claim_C6 (C : List (List Char)) (g : List Char) (bulls cows : Nat) :
    (filter_codes C g bulls cows).Sublist C ∧
      (filter_codes C g bulls cows).length ≤ C.length :=
  ⟨List.filter_sublist C, (List.filter_sublist C).length_le⟩

/-- C7: a structurally valid but unreachable feedback with
`bulls + cows > 4` filters every candidate out, returning the empty list
(and, being a pure total function, raising nothing): no code can score a
feedback whose components sum beyond 4. -/
theorem claim_C7 (C : List (List Char)) (g : List Char) (bulls cows : Nat)
    (_hC : ∀ code ∈ C, code.length = 4 ∧ ∀ c ∈ code, c.isDigit)
    (hbc : 4 < bulls + cows) :
    filter_codes C g bulls cows = [] := by
  rw [filter_codes, List.filter_eq_nil_iff]
  intro code _
  simp only [decide_eq_true_eq]
  intro hfb
  have h := compute_feedback_sum_le code g
  rw [hfb] at h
  omega

theorem claim_C7_witness :
    ((∀ code ∈ [['1', '2', '3', '4']], code.length = 4 ∧ ∀ c ∈ code, c.isDigit) ∧
        4 < 3 + 2) ∧
      filter_codes [['1', '2', '3', '4']] ['5', '6', '7', '8'] 3 2 = [] :=
  ⟨by decide,
    claim_C7 [['1', '2', '3', '4']] ['5', '6', '7', '8'] 3 2 (by decide) (by decide)⟩

/-- C9: a guess identical to the secret scores `(4, 0)`: every position is a
bull and the cows pass finds only consumed positions. -/
theorem claim_C9 (A : List Char) (h4 : A.length = 4)
    (_hd : ∀ c ∈ A, c.isDigit) :
    compute_feedback A A = (4, 0) := by
  match A, h4 with
  | [a, b, c, d], _ =>
    simp [compute_feedback, bullsPass, cowsPass, List.take]

theorem claim_C9_witness :
    (['1', '2', '3', '4'].length = 4 ∧ ∀ c ∈ ['1', '2', '3', '4'], c.isDigit) ∧
      compute_feedback ['1', '2', '3', '4'] ['1', '2', '3', '4'] = (4, 0) :=
  ⟨by decide, claim_C9 ['1', '2', '3', '4'] (by decide) (by decide)⟩

/-- A digit character is none of the three sentinel characters. -/
theorem isDigit_sentinel (c : Char) (h : c.isDigit) :
    c ≠ 'x' ∧ c ≠ 'y' ∧ c ≠ 'z' := by
  refine ⟨?_, ?_, ?_⟩ <;> rintro rfl <;> exact absurd h (by decide)

/-- The bull count is the number of positions where the two strings agree. -/
theorem bullsPass_bulls (ss : List Char) :
    ∀ gs : List Char,
      (bullsPass ss gs).2.2 = (ss.zip gs).countP fun p => p.1 == p.2 := by
  induction ss with
  | nil => intro gs; simp [bullsPass]
  | cons s ss ih =>
    intro gs
    cases gs with
    | nil => simp [bullsPass]
    | cons g gs =>
      by_cases hg : g = s
      · have hb : ((s, g).1 == (s, g).2) = true := by
          simpa using hg.symm
        simp only [bullsPass, if_pos hg, List.zip_cons_cons, List.countP_cons, hb,
          if_pos, ih gs]
      · have hb : ((s, g).1 == (s, g).2) = false := by
          simpa using fun h => hg h.symm
        simp only [bullsPass, if_neg hg, List.zip_cons_cons, List.countP_cons, hb]
        simp [ih gs]

/-- The matched list has one element per bull. -/
theorem matched_length (ss gs : List Char) :
    (matched ss gs).length = (ss.zip gs).countP fun p => p.1 == p.2 := by
  simp [matched, List.countP_eq_length_filter]

/-- On the matched positions the first and second components agree, so the
matched characters can be read off either string. -/
theorem matched_eq_map_snd (ss gs : List Char) :
    matched ss gs = ((ss.zip gs).filter fun p => p.1 == p.2).map Prod.snd := by
  apply List.map_congr_left
  intro p hp
  exact beq_iff_eq.mp (List.mem_filter.mp hp).2

/-- The matched characters form a sublist of the secret. -/
theorem matched_sublist_left (ss gs : List Char) (h : ss.length ≤ gs.length) :
    (matched ss gs).Sublist ss := by
  have h2 := (List.filter_sublist (l := ss.zip gs)
    (p := fun p => p.1 == p.2)).map Prod.fst
  rwa [List.map_fst_zip ss gs h] at h2

/-- The matched characters form a sublist of the guess. -/
theorem matched_sublist_right (ss gs : List Char) (h : gs.length ≤ ss.length) :
    (matched ss gs).Sublist gs := by
  rw [matched_eq_map_snd]
  have h2 := (List.filter_sublist (l := ss.zip gs)
    (p := fun p => p.1 == p.2)).map Prod.snd
  rwa [List.map_snd_zip ss gs h] at h2

theorem matched_le_left (ss gs : List Char) (h : ss.length ≤ gs.length) :
    (matched ss gs : Multiset Char) ≤ (ss : Multiset Char) :=
  Multiset.coe_le.mpr (matched_sublist_left ss gs h).subperm

theorem matched_le_right (ss gs : List Char) (h : gs.length ≤ ss.length) :
    (matched ss gs : Multiset Char) ≤ (gs : Multiset Char) :=
  Multiset.coe_le.mpr (matched_sublist_right ss gs h).subperm

/-- After the bulls pass, the non-sentinel characters left in the secret are
the original secret minus the matched characters (as multisets). -/
theorem bullsPass_secret_filter (ss : List Char) :
    ∀ gs : List Char, ss.length = gs.length →
      (∀ c ∈ ss, c ≠ 'x' ∧ c ≠ 'z') →
      (((bullsPass ss gs).1.filter fun c => c != 'x' && c != 'z') : Multiset Char) =
        (ss : Multiset Char) - (matched ss gs : Multiset Char) := by
  induction ss with
  | nil =>
    intro gs hlen _
    have hgs : gs = [] := by cases gs <;> simp_all
    subst hgs
    simp [bullsPass, matched]
  | cons s ss ih =>
    intro gs hlen hss
    cases gs with
    | nil => simp at hlen
    | cons g gs =>
      have hlen2 : ss.length = gs.length := by simpa using hlen
      have hs1 := hss s (List.mem_cons_self s ss)
      have hss2 : ∀ c ∈ ss, c ≠ 'x' ∧ c ≠ 'z' := fun c hc =>
        hss c (List.mem_cons_of_mem _ hc)
      by_cases hg : g = s
      · have hb : ((s, g).1 == (s, g).2) = true := by simpa using hg.symm
        have h1 : (bullsPass (s :: ss) (g :: gs)).1 = 'x' :: (bullsPass ss gs).1 := by
          simp [bullsPass, if_pos hg]
        have h2 : matched (s :: ss) (g :: gs) = s :: matched ss gs := by
          unfold matched
          have hf : List.filter (fun p => p.1 == p.2) ((s, g) :: ss.zip gs) =
              (s, g) :: List.filter (fun p => p.1 == p.2) (ss.zip gs) :=
            List.filter_cons_of_pos hb
          rw [List.zip_cons_cons, hf, List.map_cons]
        have h3 : List.filter (fun c => c != 'x' && c != 'z')
            ('x' :: (bullsPass ss gs).1) =
            List.filter (fun c => c != 'x' && c != 'z') (bullsPass ss gs).1 :=
          List.filter_cons_of_neg (by decide)
        rw [h1, h2, h3, ih gs hlen2 hss2, ← Multiset.cons_coe, ← Multiset.cons_coe,
          Multiset.sub_cons, Multiset.erase_cons_head]
      · have hb : ((s, g).1 == (s, g).2) = false := by
          simpa using fun h => hg h.symm
        have h1 : (bullsPass (s :: ss) (g :: gs)).1 = s :: (bullsPass ss gs).1 := by
          simp [bullsPass, if_neg hg]
        have h2 : matched (s :: ss) (g :: gs) = matched ss gs := by
          unfold matched
          have hf : List.filter (fun p => p.1 == p.2) ((s, g) :: ss.zip gs) =
              List.filter (fun p => p.1 == p.2) (ss.zip gs) :=
            List.filter_cons_of_neg (by simp [hb])
          rw [List.zip_cons_cons, hf]
        have h3 : List.filter (fun c => c != 'x' && c != 'z')
            (s :: (bullsPass ss gs).1) =
            s :: List.filter (fun c => c != 'x' && c != 'z') (bullsPass ss gs).1 :=
          List.filter_cons_of_pos (by simp [hs1.1, hs1.2])
        rw [h1, h2, h3, ← Multiset.cons_coe, ← Multiset.cons_coe,
          Multiset.cons_sub_of_le s (matched_le_left ss gs (le_of_eq hlen2)),
          ih gs hlen2 hss2]

/-- After the bulls pass, the non-`'y'` characters left in the guess are the
original guess minus the matched characters (as multisets). -/
theorem bullsPass_guess_filter (ss : List Char) :
    ∀ gs : List Char, ss.length = gs.length →
      (∀ c ∈ gs, c ≠ 'y') →
      (((bullsPass ss gs).2.1.filter fun c => c != 'y') : Multiset Char) =
        (gs : Multiset Char) - (matched ss gs : Multiset Char) := by
  induction ss with
  | nil =>
    intro gs hlen _
    have hgs : gs = [] := by cases gs <;> simp_all
    subst hgs
    simp [bullsPass, matched]
  | cons s ss ih =>
    intro gs hlen hgs
    cases gs with
    | nil => simp at hlen
    | cons g gs =>
      have hlen2 : ss.length = gs.length := by simpa using hlen
      have hg1 := hgs g (List.mem_cons_self g gs)
      have hgs2 : ∀ c ∈ gs, c ≠ 'y' := fun c hc =>
        hgs c (List.mem_cons_of_mem _ hc)
      by_cases hg : g = s
      · have hb : ((s, g).1 == (s, g).2) = true := by simpa using hg.symm
        have h1 : (bullsPass (s :: ss) (g :: gs)).2.1 = 'y' :: (bullsPass ss gs).2.1 := by
          simp [bullsPass, if_pos hg]
        have h2 : matched (s :: ss) (g :: gs) = s :: matched ss gs := by
          unfold matched
          have hf : List.filter (fun p => p.1 == p.2) ((s, g) :: ss.zip gs) =
              (s, g) :: List.filter (fun p => p.1 == p.2) (ss.zip gs) :=
            List.filter_cons_of_pos hb
          rw [List.zip_cons_cons, hf, List.map_cons]
        have h3 : List.filter (fun c => c != 'y')
            ('y' :: (bullsPass ss gs).2.1) =
            List.filter (fun c => c != 'y') (bullsPass ss gs).2.1 :=
          List.filter_cons_of_neg (by decide)
        rw [h1, h2, h3, ih gs hlen2 hgs2, ← Multiset.cons_coe, ← Multiset.cons_coe,
          Multiset.sub_cons, show s = g from hg.symm, Multiset.erase_cons_head]
      · have hb : ((s, g).1 == (s, g).2) = false := by
          simpa using fun h => hg h.symm
        have h1 : (bullsPass (s :: ss) (g :: gs)).2.1 = g :: (bullsPass ss gs).2.1 := by
          simp [bullsPass, if_neg hg]
        have h2 : matched (s :: ss) (g :: gs) = matched ss gs := by
          unfold matched
          have hf : List.filter (fun p => p.1 == p.2) ((s, g) :: ss.zip gs) =
              List.filter (fun p => p.1 == p.2) (ss.zip gs) :=
            List.filter_cons_of_neg (by simp [hb])
          rw [List.zip_cons_cons, hf]
        have h3 : List.filter (fun c => c != 'y')
            (g :: (bullsPass ss gs).2.1) =
            g :: List.filter (fun c => c != 'y') (bullsPass ss gs).2.1 :=
          List.filter_cons_of_pos (by simp [hg1])
        rw [h1, h2, h3, ← Multiset.cons_coe, ← Multiset.cons_coe,
          Multiset.cons_sub_of_le g (matched_le_right ss gs (ge_of_eq hlen2)),
          ih gs hlen2 hgs2]

/-- Every character of the marked guess is either the sentinel `'y'` or an
original guess character. -/
theorem bullsPass_guess_mem (ss : List Char) :
    ∀ gs : List Char, ∀ c ∈ (bullsPass ss gs).2.1, c = 'y' ∨ c ∈ gs := by
  induction ss with
  | nil => intro gs c hc; right; simpa [bullsPass] using hc
  | cons s ss ih =>
    intro gs c hc
    cases gs with
    | nil => right; simp only [bullsPass] at hc; exact hc
    | cons g gs =>
      by_cases hg : g = s
      · simp only [bullsPass, if_pos hg, List.mem_cons] at hc
        rcases hc with hc | hc
        · exact Or.inl hc
        · rcases ih gs c hc with h | h
          · exact Or.inl h
          · exact Or.inr (List.mem_cons_of_mem _ h)
      · simp only [bullsPass, if_neg hg, List.mem_cons] at hc
        rcases hc with hc | hc
        · exact Or.inr (by simp [hc])
        · rcases ih gs c hc with h | h
          · exact Or.inl h
          · exact Or.inr (List.mem_cons_of_mem _ h)

/-- Marking the first occurrence of a non-sentinel character erases it from
the non-sentinel residue of the secret. -/
theorem markFirst_filter (g : Char) (hgx : g ≠ 'x') (hgz : g ≠ 'z')
    (sd : List Char) :
    (markFirst sd g).filter (fun c => c != 'x' && c != 'z') =
      (sd.filter fun c => c != 'x' && c != 'z').erase g := by
  induction sd with
  | nil => simp [markFirst]
  | cons s ss ih =>
    by_cases hs : s = g
    · subst hs
      have hm : markFirst (s :: ss) s = 'z' :: ss := by simp [markFirst]
      have hz : List.filter (fun c => c != 'x' && c != 'z') ('z' :: ss) =
          List.filter (fun c => c != 'x' && c != 'z') ss :=
        List.filter_cons_of_neg (by decide)
      have hsf : List.filter (fun c => c != 'x' && c != 'z') (s :: ss) =
          s :: List.filter (fun c => c != 'x' && c != 'z') ss :=
        List.filter_cons_of_pos (by simp [hgx, hgz])
      rw [hm, hz, hsf, List.erase_cons_head]
    · have hm : markFirst (s :: ss) g = s :: markFirst ss g := by
        simp [markFirst, hs]
      by_cases hsp : (s != 'x' && s != 'z') = true
      · have f1 : List.filter (fun c => c != 'x' && c != 'z') (s :: markFirst ss g) =
            s :: List.filter (fun c => c != 'x' && c != 'z') (markFirst ss g) :=
          List.filter_cons_of_pos hsp
        have f2 : List.filter (fun c => c != 'x' && c != 'z') (s :: ss) =
            s :: List.filter (fun c => c != 'x' && c != 'z') ss :=
          List.filter_cons_of_pos hsp
        rw [hm, f1, f2, List.erase_cons_tail (by simp [hs]), ih]
      · have f1 : List.filter (fun c => c != 'x' && c != 'z') (s :: markFirst ss g) =
            List.filter (fun c => c != 'x' && c != 'z') (markFirst ss g) :=
          List.filter_cons_of_neg hsp
        have f2 : List.filter (fun c => c != 'x' && c != 'z') (s :: ss) =
            List.filter (fun c => c != 'x' && c != 'z') ss :=
          List.filter_cons_of_neg hsp
        rw [hm, f1, f2, ih]

/-- The cows pass computes the size of the multiset intersection between the
unconsumed guess characters and the non-sentinel secret characters, provided
no guess character is itself a secret-side sentinel. -/
theorem cowsPass_eq_card_inter (gd : List Char) :
    ∀ sd : List Char, (∀ c ∈ gd, c ≠ 'x' ∧ c ≠ 'z') →
      cowsPass sd gd =
        Multiset.card (((gd.filter fun c => c != 'y') : Multiset Char) ∩
          ((sd.filter fun c => c != 'x' && c != 'z') : Multiset Char)) := by
  induction gd with
  | nil => intro sd _; simp [cowsPass]
  | cons g gs ih =>
    intro sd hsent
    have hg1 := hsent g (List.mem_cons_self g gs)
    have hsent2 : ∀ c ∈ gs, c ≠ 'x' ∧ c ≠ 'z' := fun c hc =>
      hsent c (List.mem_cons_of_mem _ hc)
    by_cases hy : g = 'y'
    · have hcond : ¬(g ≠ 'y' ∧ g ∈ sd) := fun h => h.1 hy
      have hfg : List.filter (fun c => c != 'y') (g :: gs) =
          List.filter (fun c => c != 'y') gs :=
        List.filter_cons_of_neg (by simp [hy])
      simp only [cowsPass, if_neg hcond]
      rw [hfg]
      exact ih sd hsent2
    · have hfg : List.filter (fun c => c != 'y') (g :: gs) =
          g :: List.filter (fun c => c != 'y') gs :=
        List.filter_cons_of_pos (by simp [hy])
      by_cases hmem : g ∈ sd
      · have hcond : g ≠ 'y' ∧ g ∈ sd := ⟨hy, hmem⟩
        have hgmem : g ∈ ((sd.filter fun c => c != 'x' && c != 'z') : Multiset Char) := by
          simp [List.mem_filter, hmem, hg1.1, hg1.2]
        simp only [cowsPass, if_pos hcond]
        rw [hfg, ← Multiset.cons_coe, Multiset.cons_inter_of_pos _ hgmem,
          Multiset.card_cons]
        rw [Multiset.coe_erase, ← markFirst_filter g hg1.1 hg1.2 sd]
        rw [ih (markFirst sd g) hsent2]
      · have hcond : ¬(g ≠ 'y' ∧ g ∈ sd) := fun h => hmem h.2
        have hgmem : g ∉ ((sd.filter fun c => c != 'x' && c != 'z') : Multiset Char) := by
          simp only [Multiset.mem_coe, List.mem_filter]
          exact fun h => hmem h.1
        simp only [cowsPass, if_neg hcond]
        rw [hfg, ← Multiset.cons_coe, Multiset.cons_inter_of_neg _ hgmem]
        exact ih sd hsent2

/-- A sum of a function over a deduplicated list is the sum over the list's
finset of elements. -/
theorem dedup_map_sum {M : Type} [AddCommMonoid M] (l : List Char) (f : Char → M) :
    (l.dedup.map f).sum = ∑ d ∈ l.toFinset, f d := by
  have hval : (l.toFinset).val = (l.dedup : Multiset Char) := by
    show ((l : Multiset Char).toFinset).val = _
    rw [Multiset.toFinset_val, Multiset.coe_dedup]
  rw [Finset.sum_eq_multiset_sum, hval, Multiset.map_coe, Multiset.sum_coe]

/-- The `common` sum of the counting scorer is the size of the multiset
intersection of guess and secret. -/
theorem sum_min_counts (ss gs : List Char) :
    (gs.dedup.map fun d => min (ss.count d) (gs.count d)).sum =
      Multiset.card ((gs : Multiset Char) ∩ (ss : Multiset Char)) := by
  have hsub : ((gs : Multiset Char) ∩ (ss : Multiset Char)).toFinset ⊆
      gs.toFinset := by
    intro d hd
    rw [Multiset.mem_toFinset, Multiset.mem_inter] at hd
    simpa using hd.1
  have hzero : ∀ d ∈ gs.toFinset,
      d ∉ ((gs : Multiset Char) ∩ (ss : Multiset Char)).toFinset →
      Multiset.count d ((gs : Multiset Char) ∩ (ss : Multiset Char)) = 0 := by
    intro d _ hd
    rw [Multiset.mem_toFinset] at hd
    exact Multiset.count_eq_zero.mpr hd
  rw [dedup_map_sum,
    ← Multiset.toFinset_sum_count_eq ((gs : Multiset Char) ∩ (ss : Multiset Char)),
    Finset.sum_subset hsub hzero]
  apply Finset.sum_congr rfl
  intro d _
  rw [Multiset.count_inter, Multiset.coe_count, Multiset.coe_count, min_comm]

/-- Removing a common submultiset from both sides removes it from the
intersection. -/
theorem inter_sub_sub (G S M : Multiset Char) :
    (G - M) ∩ (S - M) = G ∩ S - M := by
  ext a
  simp only [Multiset.count_inter, Multiset.count_sub]
  exact Nat.sub_min_sub_right _ _ _

/-- C4: on 4-character digit strings the marking-based scorer of the
computer-guessing program and the multiset-counting scorer of the
user-guessing program agree: same bulls, and the counting cows
`common - bulls` equal the marking cows. -/
theorem claim_C4 (secret guess : List Char) (hs : secret.length = 4)
    (hg : guess.length = 4) (hsd : ∀ c ∈ secret, c.isDigit)
    (hgd : ∀ c ∈ guess, c.isDigit) :
    UserGuessing.compute_feedback secret guess =
      ((compute_feedback secret guess).1,
        ((compute_feedback secret guess).2 : Int)) := by
  have hts : secret.take 4 = secret := List.take_of_length_le (by omega)
  have htg : guess.take 4 = guess := List.take_of_length_le (by omega)
  have hlen : secret.length = guess.length := by omega
  have hsxz : ∀ c ∈ secret, c ≠ 'x' ∧ c ≠ 'z' := fun c hc =>
    ⟨(isDigit_sentinel c (hsd c hc)).1, (isDigit_sentinel c (hsd c hc)).2.2⟩
  have hgy : ∀ c ∈ guess, c ≠ 'y' := fun c hc =>
    (isDigit_sentinel c (hgd c hc)).2.1
  have hgd2 : ∀ c ∈ (bullsPass secret guess).2.1, c ≠ 'x' ∧ c ≠ 'z' := by
    intro c hc
    rcases bullsPass_guess_mem secret guess c hc with h | h
    · subst h; exact ⟨by decide, by decide⟩
    · exact ⟨(isDigit_sentinel c (hgd c h)).1, (isDigit_sentinel c (hgd c h)).2.2⟩
  have hMg : (matched secret guess : Multiset Char) ≤ (guess : Multiset Char) :=
    matched_le_right secret guess (ge_of_eq hlen)
  have hMs : (matched secret guess : Multiset Char) ≤ (secret : Multiset Char) :=
    matched_le_left secret guess (le_of_eq hlen)
  have hMi : (matched secret guess : Multiset Char) ≤
      (guess : Multiset Char) ∩ (secret : Multiset Char) :=
    Multiset.le_inter hMg hMs
  have hcows : cowsPass (bullsPass secret guess).1 (bullsPass secret guess).2.1 =
      Multiset.card ((guess : Multiset Char) ∩ (secret : Multiset Char)) -
        Multiset.card (matched secret guess : Multiset Char) := by
    rw [cowsPass_eq_card_inter _ _ hgd2,
      bullsPass_guess_filter secret guess hlen hgy,
      bullsPass_secret_filter secret guess hlen hsxz, inter_sub_sub,
      Multiset.card_sub hMi]
  have hbulls := bullsPass_bulls secret guess
  have hcard : Multiset.card (matched secret guess : Multiset Char) =
      (secret.zip guess).countP fun p => p.1 == p.2 := by
    rw [Multiset.coe_card, matched_length]
  have hle : Multiset.card (matched secret guess : Multiset Char) ≤
      Multiset.card ((guess : Multiset Char) ∩ (secret : Multiset Char)) :=
    Multiset.card_le_card hMi
  have hcommon := sum_min_counts secret guess
  simp only [UserGuessing.compute_feedback, compute_feedback, hts, htg,
    Prod.mk.injEq]
  constructor
  · exact hbulls.symm
  · rw [hcows, hcommon, ← hcard]
    omega

theorem claim_C4_witness :
    (['1', '2', '3', '4'].length = 4 ∧ ['1', '4', '3', '2'].length = 4) ∧
      UserGuessing.compute_feedback ['1', '2', '3', '4'] ['1', '4', '3', '2'] =
        ((compute_feedback ['1', '2', '3', '4'] ['1', '4', '3', '2']).1,
          ((compute_feedback ['1', '2', '3', '4'] ['1', '4', '3', '2']).2 : Int)) :=
  ⟨by decide,
    claim_C4 ['1', '2', '3', '4'] ['1', '4', '3', '2'] (by decide) (by decide)
      (by decide) (by decide)⟩

end ComputerGuessing

namespace ComputerGuessing

/-- A sum of a function over a deduplicated list is the sum over the list's
finset of elements. -/
theorem dedup_map_sum_general {α M : Type} [DecidableEq α] [AddCommMonoid M]
    (l : List α) (f : α → M) :
    (l.dedup.map f).sum = ∑ d ∈ l.toFinset, f d := by
  have hval : (l.toFinset).val = (l.dedup : Multiset α) := by
    show ((l : Multiset α).toFinset).val = _
    rw [Multiset.toFinset_val, Multiset.coe_dedup]
  rw [Finset.sum_eq_multiset_sum, hval, Multiset.map_coe, Multiset.sum_coe]

/-- The derived boolean equality on pairs agrees with the one obtained from
decidable equality (the two instances are equal), letting the
decidable-equality count lemmas apply to the counts used by the entropy
definition. -/
theorem prodBEq_eq :
    (instBEqProd : BEq (Nat × Nat)) =
      @instBEqOfDecidableEq (Nat × Nat) instDecidableEqProd :=
  congr_arg BEq.mk <| by
    funext p q
    show (p == q) = _
    rw [Bool.eq_iff_iff, @beq_iff_eq _ (_), decide_eq_true_iff]

/-- The counts of the distinct elements of a list sum to its length. -/
theorem sum_count_toFinset (l : List (Nat × Nat)) :
    ∑ f ∈ l.toFinset, l.count f = l.length := by
  simp only [prodBEq_eq]
  rw [← dedup_map_sum_general]
  exact List.sum_map_count_dedup_eq_length l

/-- `Nodup` for a list of feedback pairs, phrased through the counts used by
the entropy definition. -/
theorem nodup_iff_count_eq_one_pair (l : List (Nat × Nat)) :
    l.Nodup ↔ ∀ a ∈ l, l.count a = 1 := by
  simp only [prodBEq_eq]
  exact List.nodup_iff_count_eq_one

/-- On a non-empty candidate list, `calculate_entropy` is the finset sum of
`-p log2 p` over the distinct feedback values. -/
theorem entropy_eq_sum (C : List (List Char)) (g : List Char)
    (h : C.length ≠ 0) :
    calculate_entropy C g =
      ∑ f ∈ (C.map fun code => compute_feedback code g).toFinset,
        -(((C.map fun code => compute_feedback code g).count f : ℝ) /
            (C.length : ℝ) *
          Real.logb 2
            (((C.map fun code => compute_feedback code g).count f : ℝ) /
              (C.length : ℝ))) := by
  simp only [calculate_entropy, if_neg h]
  exact dedup_map_sum_general _ _

/-- Entropy decomposes as `log2 n` minus the normalized sum of
`count * log2 count` over the distinct feedback values. -/
theorem entropy_eq_logb_sub (C : List (List Char)) (g : List Char)
    (h : C.length ≠ 0) :
    calculate_entropy C g =
      Real.logb 2 (C.length : ℝ) -
        (∑ f ∈ (C.map fun code => compute_feedback code g).toFinset,
            ((C.map fun code => compute_feedback code g).count f : ℝ) *
              Real.logb 2
                (((C.map fun code => compute_feedback code g).count f : ℝ))) /
          (C.length : ℝ) := by
  have hn0 : (0 : ℝ) < (C.length : ℝ) := by
    exact_mod_cast Nat.pos_of_ne_zero h
  rw [entropy_eq_sum C g h]
  have hcnt : ∀ f ∈ (C.map fun code => compute_feedback code g).toFinset,
      (0 : ℝ) < ((C.map fun code => compute_feedback code g).count f : ℝ) := by
    intro f hf
    have := List.count_pos_iff.mpr (List.mem_toFinset.mp hf)
    exact_mod_cast this
  have hterm : ∀ f ∈ (C.map fun code => compute_feedback code g).toFinset,
      -(((C.map fun code => compute_feedback code g).count f : ℝ) /
          (C.length : ℝ) *
        Real.logb 2
          (((C.map fun code => compute_feedback code g).count f : ℝ) /
            (C.length : ℝ))) =
        ((C.map fun code => compute_feedback code g).count f : ℝ) *
            Real.logb 2 (C.length : ℝ) / (C.length : ℝ) -
          ((C.map fun code => compute_feedback code g).count f : ℝ) *
            Real.logb 2
              (((C.map fun code => compute_feedback code g).count f : ℝ)) /
            (C.length : ℝ) := by
    intro f hf
    rw [Real.logb_div (hcnt f hf).ne' hn0.ne']
    ring
  rw [Finset.sum_congr rfl hterm, Finset.sum_sub_distrib]
  congr 1
  · rw [← Finset.sum_div, ← Finset.sum_mul]
    have hsum : ∑ f ∈ (C.map fun code => compute_feedback code g).toFinset,
        ((C.map fun code => compute_feedback code g).count f : ℝ) =
          (C.length : ℝ) := by
      rw [← Nat.cast_sum, sum_count_toFinset]
      simp
    rw [hsum, mul_comm, mul_div_assoc, div_self hn0.ne', mul_one]
  · rw [← Finset.sum_div]

/-- The `count * log2 count` correction term is non-negative. -/
theorem corr_sum_nonneg (C : List (List Char)) (g : List Char) :
    0 ≤ ∑ f ∈ (C.map fun code => compute_feedback code g).toFinset,
        ((C.map fun code => compute_feedback code g).count f : ℝ) *
          Real.logb 2
            (((C.map fun code => compute_feedback code g).count f : ℝ)) := by
  apply Finset.sum_nonneg
  intro f hf
  have h1 : 0 < (C.map fun code => compute_feedback code g).count f :=
    List.count_pos_iff.mpr (List.mem_toFinset.mp hf)
  have h2 : (1 : ℝ) ≤ ((C.map fun code => compute_feedback code g).count f : ℝ) := by
    exact_mod_cast h1
  exact mul_nonneg (by linarith) (Real.logb_nonneg one_lt_two h2)

/-- Entropy never exceeds the `log2` of the candidate count. -/
theorem entropy_le_logb_length (C : List (List Char)) (g : List Char)
    (h : C.length ≠ 0) :
    calculate_entropy C g ≤ Real.logb 2 (C.length : ℝ) := by
  have hn0 : (0 : ℝ) < (C.length : ℝ) := by
    exact_mod_cast Nat.pos_of_ne_zero h
  rw [entropy_eq_logb_sub C g h]
  have := corr_sum_nonneg C g
  have hq : 0 ≤ (∑ f ∈ (C.map fun code => compute_feedback code g).toFinset,
      ((C.map fun code => compute_feedback code g).count f : ℝ) *
        Real.logb 2
          (((C.map fun code => compute_feedback code g).count f : ℝ)))
      / (C.length : ℝ) := div_nonneg this hn0.le
  linarith

/-- Entropy attains the `log2 n` ceiling exactly when every candidate yields
a distinct feedback value (the feedback list has no duplicates). -/
theorem entropy_eq_logb_iff_nodup (C : List (List Char)) (g : List Char)
    (h : C.length ≠ 0) :
    calculate_entropy C g = Real.logb 2 (C.length : ℝ) ↔
      (C.map fun code => compute_feedback code g).Nodup := by
  have hn0 : (0 : ℝ) < (C.length : ℝ) := by
    exact_mod_cast Nat.pos_of_ne_zero h
  have hnn : ∀ f ∈ (C.map fun code => compute_feedback code g).toFinset,
      0 ≤ ((C.map fun code => compute_feedback code g).count f : ℝ) *
        Real.logb 2
          (((C.map fun code => compute_feedback code g).count f : ℝ)) := by
    intro f hf
    have h1 : 0 < (C.map fun code => compute_feedback code g).count f :=
      List.count_pos_iff.mpr (List.mem_toFinset.mp hf)
    have h2 : (1 : ℝ) ≤ ((C.map fun code => compute_feedback code g).count f : ℝ) := by
      exact_mod_cast h1
    exact mul_nonneg (by linarith) (Real.logb_nonneg one_lt_two h2)
  rw [entropy_eq_logb_sub C g h]
  constructor
  · intro heq
    have hz : (∑ f ∈ (C.map fun code => compute_feedback code g).toFinset,
        ((C.map fun code => compute_feedback code g).count f : ℝ) *
          Real.logb 2
            (((C.map fun code => compute_feedback code g).count f : ℝ)))
        / (C.length : ℝ) = 0 := by linarith
    have hz2 : ∑ f ∈ (C.map fun code => compute_feedback code g).toFinset,
        ((C.map fun code => compute_feedback code g).count f : ℝ) *
          Real.logb 2
            (((C.map fun code => compute_feedback code g).count f : ℝ)) = 0 := by
      rcases div_eq_zero_iff.mp hz with h0 | h0
      · exact h0
      · exact absurd h0 hn0.ne'
    have hall := (Finset.sum_eq_zero_iff_of_nonneg hnn).mp hz2
    rw [nodup_iff_count_eq_one_pair]
    intro a ha
    have hfa := hall a (List.mem_toFinset.mpr ha)
    have hc1 : 0 < (C.map fun code => compute_feedback code g).count a :=
      List.count_pos_iff.mpr ha
    by_contra hne
    have hc2 : 2 ≤ (C.map fun code => compute_feedback code g).count a := by omega
    have hc2r : (2 : ℝ) ≤ ((C.map fun code => compute_feedback code g).count a : ℝ) := by
      exact_mod_cast hc2
    have hlb : 0 < Real.logb 2
        (((C.map fun code => compute_feedback code g).count a : ℝ)) :=
      Real.logb_pos one_lt_two (by linarith)
    have hpos : 0 < ((C.map fun code => compute_feedback code g).count a : ℝ) *
        Real.logb 2 (((C.map fun code => compute_feedback code g).count a : ℝ)) :=
      mul_pos (by linarith) hlb
    linarith
  · intro hnd
    have hall : ∀ f ∈ (C.map fun code => compute_feedback code g).toFinset,
        ((C.map fun code => compute_feedback code g).count f : ℝ) *
          Real.logb 2
            (((C.map fun code => compute_feedback code g).count f : ℝ)) = 0 := by
      intro f hf
      have h1 := (nodup_iff_count_eq_one_pair _).mp hnd f (List.mem_toFinset.mp hf)
      rw [h1]
      norm_num
    rw [Finset.sum_eq_zero hall]
    norm_num

end ComputerGuessing

namespace ComputerGuessing

/-- Entropy is never negative: each summand `-p log2 p` with `0 < p ≤ 1` is
non-negative. -/
theorem entropy_nonneg (C : List (List Char)) (g : List Char) :
    0 ≤ calculate_entropy C g := by
  by_cases h : C.length = 0
  · simp [calculate_entropy, h]
  · rw [entropy_eq_sum C g h]
    have hn0 : (0 : ℝ) < (C.length : ℝ) := by
      exact_mod_cast Nat.pos_of_ne_zero h
    apply Finset.sum_nonneg
    intro f hf
    have hc1 : 0 < (C.map fun code => compute_feedback code g).count f :=
      List.count_pos_iff.mpr (List.mem_toFinset.mp hf)
    have hcle : (C.map fun code => compute_feedback code g).count f ≤
        (C.map fun code => compute_feedback code g).length :=
      List.count_le_length _ _
    have hclen : ((C.map fun code => compute_feedback code g).count f : ℝ) ≤
        (C.length : ℝ) := by
      have : (C.map fun code => compute_feedback code g).length = C.length := by
        simp
      rw [this] at hcle
      exact_mod_cast hcle
    have hp0 : (0 : ℝ) ≤
        ((C.map fun code => compute_feedback code g).count f : ℝ) / (C.length : ℝ) := by
      positivity
    have hp1 : ((C.map fun code => compute_feedback code g).count f : ℝ) /
        (C.length : ℝ) ≤ 1 := by
      rw [div_le_one hn0]
      exact hclen
    have hlogb : Real.logb 2
        (((C.map fun code => compute_feedback code g).count f : ℝ) /
          (C.length : ℝ)) ≤ 0 :=
      Real.logb_nonpos one_lt_two hp0 hp1
    nlinarith

/-- Against a single remaining candidate every guess has zero entropy: the
feedback partition is a single block of probability one. -/
theorem entropy_singleton (c : List Char) (g : List Char) :
    calculate_entropy [c] g = 0 := by
  rw [entropy_eq_sum [c] g (by simp)]
  simp [Real.logb_one]

/-- C2, counterexample to the claim as stated: on the two-element candidate
list that repeats the code `"1234"`, the feedback map is injective on the
(one-element) set of candidates, yet the entropy is `0`, not
`log2 2 = 1`.  The claimed equivalence fails on candidate lists with
duplicate codes. -/
theorem claim_C2_counterexample :
    ¬ (calculate_entropy [['1', '2', '3', '4'], ['1', '2', '3', '4']]
          ['1', '2', '3', '4'] =
        Real.logb 2
          (([['1', '2', '3', '4'], ['1', '2', '3', '4']] :
            List (List Char)).length : ℝ) ↔
      Set.InjOn (fun D => compute_feedback D ['1', '2', '3', '4'])
        {D | D ∈ [['1', '2', '3', '4'], ['1', '2', '3', '4']]}) := by
  intro hiff
  have hinj : Set.InjOn (fun D => compute_feedback D ['1', '2', '3', '4'])
      {D | D ∈ [['1', '2', '3', '4'], ['1', '2', '3', '4']]} := by
    intro x hx y hy _
    have hx1 : x ∈ [['1', '2', '3', '4'], ['1', '2', '3', '4']] := hx
    have hy1 : y ∈ [['1', '2', '3', '4'], ['1', '2', '3', '4']] := hy
    have hx2 : x = ['1', '2', '3', '4'] := by
      rcases List.mem_cons.mp hx1 with h | h
      · exact h
      · simpa using h
    have hy2 : y = ['1', '2', '3', '4'] := by
      rcases List.mem_cons.mp hy1 with h | h
      · exact h
      · simpa using h
    rw [hx2, hy2]
  have hent := hiff.mpr hinj
  have hzero : calculate_entropy [['1', '2', '3', '4'], ['1', '2', '3', '4']]
      ['1', '2', '3', '4'] = 0 := by
    rw [entropy_eq_sum _ _ (by simp)]
    have hmap : ([['1', '2', '3', '4'], ['1', '2', '3', '4']].map
        fun code => compute_feedback code ['1', '2', '3', '4']) =
        [(4, 0), (4, 0)] := by decide
    rw [hmap]
    have htf : ([(4, 0), (4, 0)] : List (Nat × Nat)).toFinset = {(4, 0)} := by
      decide
    rw [htf]
    rw [Finset.sum_singleton]
    norm_num [Real.logb_one]
  rw [hzero] at hent
  have h2 : Real.logb 2
      (([['1', '2', '3', '4'], ['1', '2', '3', '4']] :
        List (List Char)).length : ℝ) = 1 := by
    have : (([['1', '2', '3', '4'], ['1', '2', '3', '4']] :
        List (List Char)).length : ℝ) = 2 := by norm_num
    rw [this]
    exact Real.logb_self_eq_one one_lt_two
  rw [h2] at hent
  norm_num at hent

/-- C2, amended: for a non-empty candidate list the entropy of any guess is
at most `log2 |C|`; when the candidate list has no duplicate codes (the
CandidateSet invariant of the specification), the ceiling is attained exactly
when the feedback map is injective on the candidates. -/
theorem claim_C2 (C : List (List Char)) (g : List Char) (hC : C ≠ []) :
    calculate_entropy C g ≤ Real.logb 2 (C.length : ℝ) ∧
      (C.Nodup →
        (calculate_entropy C g = Real.logb 2 (C.length : ℝ) ↔
          Set.InjOn (fun D => compute_feedback D g) {D | D ∈ C})) := by
  have h : C.length ≠ 0 := fun h0 => hC (List.length_eq_zero.mp h0)
  refine ⟨entropy_le_logb_length C g h, fun hnd => ?_⟩
  rw [entropy_eq_logb_iff_nodup C g h, List.nodup_map_iff_inj_on hnd]
  constructor
  · intro h2 x hx y hy hxy
    exact h2 x hx y hy hxy
  · intro h2 x hx y hy hxy
    exact h2 hx hy hxy

theorem claim_C2_witness :
    ([['1', '2', '3', '4'], ['5', '6', '7', '8']] ≠ ([] : List (List Char))) ∧
      (calculate_entropy [['1', '2', '3', '4'], ['5', '6', '7', '8']]
          ['1', '2', '3', '4'] ≤
        Real.logb 2
          (([['1', '2', '3', '4'], ['5', '6', '7', '8']] :
            List (List Char)).length : ℝ) ∧
        (([['1', '2', '3', '4'], ['5', '6', '7', '8']] :
            List (List Char)).Nodup →
          (calculate_entropy [['1', '2', '3', '4'], ['5', '6', '7', '8']]
              ['1', '2', '3', '4'] =
            Real.logb 2
              (([['1', '2', '3', '4'], ['5', '6', '7', '8']] :
                List (List Char)).length : ℝ) ↔
            Set.InjOn (fun D => compute_feedback D ['1', '2', '3', '4'])
              {D | D ∈ [['1', '2', '3', '4'], ['5', '6', '7', '8']]}))) :=
  ⟨by decide,
    claim_C2 [['1', '2', '3', '4'], ['5', '6', '7', '8']] ['1', '2', '3', '4']
      (by decide)⟩

end ComputerGuessing

namespace ComputerGuessing

/-- Each `count * log2 count` term is non-negative. -/
theorem corr_term_nonneg (C : List (List Char)) (g : List Char) (f : Nat × Nat)
    (hf : f ∈ (C.map fun code => compute_feedback code g).toFinset) :
    0 ≤ ((C.map fun code => compute_feedback code g).count f : ℝ) *
      Real.logb 2 (((C.map fun code => compute_feedback code g).count f : ℝ)) := by
  have h1 : 0 < (C.map fun code => compute_feedback code g).count f :=
    List.count_pos_iff.mpr (List.mem_toFinset.mp hf)
  have h2 : (1 : ℝ) ≤ ((C.map fun code => compute_feedback code g).count f : ℝ) := by
    exact_mod_cast h1
  exact mul_nonneg (by linarith) (Real.logb_nonneg one_lt_two h2)

/-- The counts of the distinct feedbacks, cast to the reals, sum to the
candidate count. -/
theorem sum_count_cast (C : List (List Char)) (g : List Char) :
    ∑ f ∈ (C.map fun code => compute_feedback code g).toFinset,
      ((C.map fun code => compute_feedback code g).count f : ℝ) =
        (C.length : ℝ) := by
  rw [← Nat.cast_sum, sum_count_toFinset]
  simp

/-- Gap lemma: when some feedback value repeats, the entropy falls short of
the `log2 n` ceiling by at least `2/n`. -/
theorem entropy_le_of_not_nodup (C : List (List Char)) (g : List Char)
    (h : C.length ≠ 0)
    (hnd : ¬ (C.map fun code => compute_feedback code g).Nodup) :
    calculate_entropy C g ≤
      Real.logb 2 (C.length : ℝ) - 2 / (C.length : ℝ) := by
  have hn0 : (0 : ℝ) < (C.length : ℝ) := by
    exact_mod_cast Nat.pos_of_ne_zero h
  rw [entropy_eq_logb_sub C g h]
  have hex : ∃ a ∈ (C.map fun code => compute_feedback code g),
      2 ≤ (C.map fun code => compute_feedback code g).count a := by
    by_contra hall
    push_neg at hall
    apply hnd
    rw [nodup_iff_count_eq_one_pair]
    intro a ha
    have h1 : 0 < (C.map fun code => compute_feedback code g).count a :=
      List.count_pos_iff.mpr ha
    have h2 := hall a ha
    omega
  obtain ⟨a, ha, h2⟩ := hex
  have h2r : (2 : ℝ) ≤ ((C.map fun code => compute_feedback code g).count a : ℝ) := by
    exact_mod_cast h2
  have hterm : (2 : ℝ) ≤
      ((C.map fun code => compute_feedback code g).count a : ℝ) *
        Real.logb 2 (((C.map fun code => compute_feedback code g).count a : ℝ)) := by
    have hl : (1 : ℝ) ≤ Real.logb 2
        (((C.map fun code => compute_feedback code g).count a : ℝ)) := by
      calc (1 : ℝ) = Real.logb 2 2 := (Real.logb_self_eq_one one_lt_two).symm
        _ ≤ Real.logb 2
            (((C.map fun code => compute_feedback code g).count a : ℝ)) :=
          Real.logb_le_logb_of_le one_lt_two (by norm_num) h2r
    nlinarith
  have hsum : (2 : ℝ) ≤
      ∑ f ∈ (C.map fun code => compute_feedback code g).toFinset,
        ((C.map fun code => compute_feedback code g).count f : ℝ) *
          Real.logb 2
            (((C.map fun code => compute_feedback code g).count f : ℝ)) := by
    have hmem : a ∈ (C.map fun code => compute_feedback code g).toFinset :=
      List.mem_toFinset.mpr ha
    have hle := Finset.single_le_sum
      (f := fun f => ((C.map fun code => compute_feedback code g).count f : ℝ) *
        Real.logb 2
          (((C.map fun code => compute_feedback code g).count f : ℝ)))
      (corr_term_nonneg C g) hmem
    simp only at hle
    linarith
  have hdiv : 2 / (C.length : ℝ) ≤
      (∑ f ∈ (C.map fun code => compute_feedback code g).toFinset,
        ((C.map fun code => compute_feedback code g).count f : ℝ) *
          Real.logb 2
            (((C.map fun code => compute_feedback code g).count f : ℝ)))
        / (C.length : ℝ) := (div_le_div_right hn0).mpr hsum
  linarith

/-- There are at most 25 distinct feedback values (bulls and cows each lie in
`0..4`). -/
theorem toFinset_feedback_card_le (C : List (List Char)) (g : List Char) :
    (C.map fun code => compute_feedback code g).toFinset.card ≤ 25 := by
  have hsub : (C.map fun code => compute_feedback code g).toFinset ⊆
      Finset.range 5 ×ˢ Finset.range 5 := by
    intro fb hfb
    rw [List.mem_toFinset, List.mem_map] at hfb
    obtain ⟨code, _, rfl⟩ := hfb
    have hb := compute_feedback_sum_le code g
    rw [Finset.mem_product, Finset.mem_range, Finset.mem_range]
    omega
  have := Finset.card_le_card hsub
  simpa using this

/-- `log2 32 = 5`. -/
theorem logb_two_32 : Real.logb 2 (32 : ℝ) = 5 := by
  have h32 : (32 : ℝ) = 2 ^ (5 : ℕ) := by norm_num
  rw [h32, Real.logb_pow, Real.logb_self_eq_one one_lt_two]
  norm_num

/-- `log2 33` clears `5` by far more than the early-exit tolerance. -/
theorem logb_33_bound : (5 : ℝ) + 1e-10 ≤ Real.logb 2 33 := by
  have hl2pos : 0 < Real.log 2 := Real.log_pos one_lt_two
  have hl2lt : Real.log 2 < 0.6931471808 := Real.log_two_lt_d9
  have h3233 : Real.log (32 / 33 : ℝ) ≤ 32 / 33 - 1 :=
    Real.log_le_sub_one_of_pos (by norm_num)
  have hlog3233 : Real.log (32 / 33 : ℝ) = Real.log 32 - Real.log 33 :=
    Real.log_div (by norm_num) (by norm_num)
  have h32 : Real.log (32 : ℝ) = 5 * Real.log 2 := by
    have h : (32 : ℝ) = 2 ^ (5 : ℕ) := by norm_num
    rw [h, Real.log_pow]
    push_cast
    ring
  have h33 : 5 * Real.log 2 + 1 / 33 ≤ Real.log 33 := by
    rw [hlog3233, h32] at h3233
    linarith
  rw [← Real.log_div_log]
  rw [le_div_iff hl2pos]
  nlinarith

/-- Entropy is bounded by the `log2` of the number of distinct feedback
values (the number of parts of the induced partition). -/
theorem entropy_le_logb_parts (C : List (List Char)) (g : List Char)
    (h : C.length ≠ 0) :
    calculate_entropy C g ≤
      Real.logb 2
        (((C.map fun code => compute_feedback code g).toFinset.card : ℝ)) := by
  have hn0 : (0 : ℝ) < (C.length : ℝ) := by
    exact_mod_cast Nat.pos_of_ne_zero h
  have hne : (C.map fun code => compute_feedback code g) ≠ [] := by
    intro h0
    have h1 := congrArg List.length h0
    simp only [List.length_map, List.length_nil] at h1
    exact h h1
  obtain ⟨f0, hf0⟩ := List.exists_mem_of_ne_nil _ hne
  have hm1 : 1 ≤ (C.map fun code => compute_feedback code g).toFinset.card := by
    have : f0 ∈ (C.map fun code => compute_feedback code g).toFinset :=
      List.mem_toFinset.mpr hf0
    exact Finset.card_pos.mpr ⟨f0, this⟩
  have hm0 : (0 : ℝ) <
      (((C.map fun code => compute_feedback code g).toFinset.card : ℝ)) := by
    exact_mod_cast hm1
  have hl2pos : 0 < Real.log 2 := Real.log_pos one_lt_two
  have hP : ∑ f ∈ (C.map fun code => compute_feedback code g).toFinset,
      ((C.map fun code => compute_feedback code g).count f : ℝ) /
        (C.length : ℝ) = 1 := by
    rw [← Finset.sum_div, sum_count_cast, div_self hn0.ne']
  have hkey : ∀ f ∈ (C.map fun code => compute_feedback code g).toFinset,
      -(((C.map fun code => compute_feedback code g).count f : ℝ) /
          (C.length : ℝ) *
        Real.logb 2
          (((C.map fun code => compute_feedback code g).count f : ℝ) /
            (C.length : ℝ))) ≤
        ((C.map fun code => compute_feedback code g).count f : ℝ) /
            (C.length : ℝ) *
          Real.logb 2
            (((C.map fun code => compute_feedback code g).toFinset.card : ℝ)) +
          (1 / ((C.map fun code => compute_feedback code g).toFinset.card : ℝ) -
            ((C.map fun code => compute_feedback code g).count f : ℝ) /
              (C.length : ℝ)) / Real.log 2 := by
    intro f hf
    have hc0 : 0 < (C.map fun code => compute_feedback code g).count f :=
      List.count_pos_iff.mpr (List.mem_toFinset.mp hf)
    have hp0 : (0 : ℝ) <
        ((C.map fun code => compute_feedback code g).count f : ℝ) /
          (C.length : ℝ) := by
      apply div_pos _ hn0
      exact_mod_cast hc0
    set p : ℝ := ((C.map fun code => compute_feedback code g).count f : ℝ) /
      (C.length : ℝ) with hpdef
    set m : ℝ :=
      (((C.map fun code => compute_feedback code g).toFinset.card : ℝ)) with hmdef
    have hlog : Real.log (1 / (p * m)) ≤ 1 / (p * m) - 1 :=
      Real.log_le_sub_one_of_pos (by positivity)
    have hlog2 : Real.log (1 / (p * m)) = -(Real.log p + Real.log m) := by
      rw [one_div, Real.log_inv, Real.log_mul hp0.ne' hm0.ne']
    have h4 : (-(Real.log p + Real.log m)) * p ≤ (1 / (p * m) - 1) * p := by
      rw [← hlog2]
      exact mul_le_mul_of_nonneg_right hlog hp0.le
    have h5 : (1 / (p * m) - 1) * p = 1 / m - p := by
      field_simp
      ring
    rw [h5] at h4
    have h6 : (-(Real.log p) * p - Real.log m * p) / Real.log 2 ≤
        (1 / m - p) / Real.log 2 := by
      apply (div_le_div_right hl2pos).mpr
      linarith
    have h7 : -(p * (Real.log p / Real.log 2)) =
        (-(Real.log p) * p) / Real.log 2 := by
      ring
    have h8 : p * (Real.log m / Real.log 2) = (Real.log m * p) / Real.log 2 := by
      ring
    rw [← Real.log_div_log, ← Real.log_div_log, h7, h8]
    have h9 : (-(Real.log p) * p) / Real.log 2 =
        (-(Real.log p) * p - Real.log m * p) / Real.log 2 +
          (Real.log m * p) / Real.log 2 := by
      ring
    linarith [h6]
  calc calculate_entropy C g
      = ∑ f ∈ (C.map fun code => compute_feedback code g).toFinset,
          -(((C.map fun code => compute_feedback code g).count f : ℝ) /
              (C.length : ℝ) *
            Real.logb 2
              (((C.map fun code => compute_feedback code g).count f : ℝ) /
                (C.length : ℝ))) := entropy_eq_sum C g h
    _ ≤ ∑ f ∈ (C.map fun code => compute_feedback code g).toFinset,
          (((C.map fun code => compute_feedback code g).count f : ℝ) /
              (C.length : ℝ) *
            Real.logb 2
              (((C.map fun code => compute_feedback code g).toFinset.card : ℝ)) +
            (1 / ((C.map fun code => compute_feedback code g).toFinset.card : ℝ) -
              ((C.map fun code => compute_feedback code g).count f : ℝ) /
                (C.length : ℝ)) / Real.log 2) := Finset.sum_le_sum hkey
    _ = Real.logb 2
          (((C.map fun code => compute_feedback code g).toFinset.card : ℝ)) := by
        rw [Finset.sum_add_distrib, ← Finset.sum_mul, hP, one_mul,
          ← Finset.sum_div, Finset.sum_sub_distrib, Finset.sum_const, hP,
          nsmul_eq_mul]
        rw [mul_one_div, div_self hm0.ne']
        norm_num

end ComputerGuessing

namespace ComputerGuessing

/-- The no-exit loop never changes its state when no remaining guess beats
the running maximum (updates are strict). -/
theorem searchLoopNoExit_stable (C : List (List Char)) (gs : List (List Char)) :
    ∀ st : List Char × ℝ, (∀ g ∈ gs, calculate_entropy C g ≤ st.2) →
      searchLoopNoExit C gs st = st := by
  induction gs with
  | nil => intro st _; rfl
  | cons g gs ih =>
    intro st hle
    have hg := hle g (List.mem_cons_self g gs)
    have hcond : ¬(calculate_entropy C g > st.2) := not_lt.mpr hg
    simp only [searchLoopNoExit, if_neg hcond]
    exact ih st fun g1 hg1 => hle g1 (List.mem_cons_of_mem _ hg1)

/-- If a guess's entropy is within the early-exit tolerance of the
`log2 n` ceiling, that entropy is in fact the exact ceiling — hence a global
maximum: distinct achievable entropy values are separated by at least `2/n`,
and the ceiling itself caps `n` at `2^5` because at most 25 feedback values
exist. -/
theorem fire_imp_max (C : List (List Char)) (g0 : List Char)
    (hfire : |calculate_entropy C g0 - Real.logb 2 (C.length : ℝ)| < 1e-10) :
    ∀ g : List Char, calculate_entropy C g ≤ calculate_entropy C g0 := by
  intro g
  by_cases hC : C.length = 0
  · have hCe : C = [] := List.length_eq_zero.mp hC
    subst hCe
    simp [calculate_entropy]
  · have heq : calculate_entropy C g0 = Real.logb 2 (C.length : ℝ) := by
      by_contra hne
      have hnd : ¬ (C.map fun code => compute_feedback code g0).Nodup := fun hnd2 =>
        hne ((entropy_eq_logb_iff_nodup C g0 hC).mpr hnd2)
      have hgap := entropy_le_of_not_nodup C g0 hC hnd
      have habs := abs_lt.mp hfire
      have hn0 : (0 : ℝ) < (C.length : ℝ) := by
        exact_mod_cast Nat.pos_of_ne_zero hC
      have hparts := entropy_le_logb_parts C g0 hC
      have hcard25 := toFinset_feedback_card_le C g0
      have hnem : (C.map fun code => compute_feedback code g0) ≠ [] := by
        intro h0
        have h1 := congrArg List.length h0
        simp only [List.length_map, List.length_nil] at h1
        exact hC h1
      obtain ⟨f0, hf0⟩ := List.exists_mem_of_ne_nil _ hnem
      have hcard1 : 1 ≤ (C.map fun code => compute_feedback code g0).toFinset.card :=
        Finset.card_pos.mpr ⟨f0, List.mem_toFinset.mpr hf0⟩
      have hcard0 : (0 : ℝ) <
          ((C.map fun code => compute_feedback code g0).toFinset.card : ℝ) := by
        exact_mod_cast hcard1
      have hcard32 : ((C.map fun code => compute_feedback code g0).toFinset.card : ℝ) ≤
          32 := by
        have h25 : ((C.map fun code => compute_feedback code g0).toFinset.card : ℝ) ≤
            25 := by exact_mod_cast hcard25
        linarith
      have hlogcard : Real.logb 2
          ((C.map fun code => compute_feedback code g0).toFinset.card : ℝ) ≤ 5 := by
        have hstep : Real.logb 2
            ((C.map fun code => compute_feedback code g0).toFinset.card : ℝ) ≤
            Real.logb 2 (32 : ℝ) :=
          Real.logb_le_logb_of_le one_lt_two hcard0 hcard32
        rw [logb_two_32] at hstep
        exact hstep
      have hH5 : calculate_entropy C g0 ≤ 5 := le_trans hparts hlogcard
      have hn32 : C.length ≤ 32 := by
        by_contra hgt
        push_neg at hgt
        have h33 : (33 : ℝ) ≤ (C.length : ℝ) := by exact_mod_cast hgt
        have hmono : Real.logb 2 33 ≤ Real.logb 2 (C.length : ℝ) :=
          Real.logb_le_logb_of_le one_lt_two (by norm_num) h33
        have hb := logb_33_bound
        linarith [habs.1]
      have hnle : (C.length : ℝ) ≤ 32 := by exact_mod_cast hn32
      have h2n : (2 : ℝ) / 32 ≤ 2 / (C.length : ℝ) := by
        rw [div_le_div_iff (by norm_num) hn0]
        linarith
      have hnum : (1e-10 : ℝ) < 2 / 32 := by norm_num
      linarith [habs.1]
    rw [heq]
    exact entropy_le_logb_length C g hC

/-- The early-exit loop computes the same result as the no-exit loop, for
any start state whose running maximum is the initial `-1` or the entropy of
some guess: when the exit fires, the running maximum is the exact ceiling
and no later guess can beat it. -/
theorem searchLoop_eq_noexit (C : List (List Char)) (gs : List (List Char)) :
    ∀ st : List Char × ℝ,
      (st.2 = -1 ∨ ∃ g0, st.2 = calculate_entropy C g0) →
      searchLoop C gs st = searchLoopNoExit C gs st := by
  induction gs with
  | nil => intro st _; rfl
  | cons g gs ih =>
    intro st hst
    simp only [searchLoop, searchLoopNoExit]
    by_cases hc : calculate_entropy C g > st.2
    · simp only [if_pos hc]
      by_cases hfire :
          |(g, calculate_entropy C g).2 - Real.logb 2 (C.length : ℝ)| < 1e-10
      · rw [if_pos hfire]
        symm
        apply searchLoopNoExit_stable
        intro g1 _
        exact fire_imp_max C g hfire g1
      · rw [if_neg hfire]
        exact ih (g, calculate_entropy C g) (Or.inr ⟨g, rfl⟩)
    · simp only [if_neg hc]
      by_cases hfire : |st.2 - Real.logb 2 (C.length : ℝ)| < 1e-10
      · rw [if_pos hfire]
        symm
        apply searchLoopNoExit_stable
        rcases hst with h1 | ⟨g0, hg0⟩
        · exfalso
          have hlogbnn : 0 ≤ Real.logb 2 (C.length : ℝ) := by
            rcases Nat.eq_zero_or_pos C.length with h0 | h0
            · simp [h0]
            · exact Real.logb_nonneg one_lt_two (by exact_mod_cast h0)
          rw [h1, abs_lt] at hfire
          linarith [hfire.1]
        · intro g1 _
          rw [hg0]
          exact fire_imp_max C g0 (hg0 ▸ hfire) g1
      · rw [if_neg hfire]
        exact ih st hst

end ComputerGuessing

namespace ComputerGuessing

/-- What the no-exit loop returns: either nothing beat the initial maximum
and the state is unchanged, or the result is the first guess attaining the
final maximum, all earlier guesses scoring strictly below it and all guesses
at most it. -/
theorem searchLoopNoExit_spec (C : List (List Char)) (gs : List (List Char)) :
    ∀ st : List Char × ℝ,
      (searchLoopNoExit C gs st = st ∧
        ∀ g ∈ gs, calculate_entropy C g ≤ st.2) ∨
      (∃ pre post, gs = pre ++ (searchLoopNoExit C gs st).1 :: post ∧
        calculate_entropy C (searchLoopNoExit C gs st).1 =
          (searchLoopNoExit C gs st).2 ∧
        st.2 < (searchLoopNoExit C gs st).2 ∧
        (∀ g ∈ pre, calculate_entropy C g < (searchLoopNoExit C gs st).2) ∧
        (∀ g ∈ gs, calculate_entropy C g ≤ (searchLoopNoExit C gs st).2)) := by
  induction gs with
  | nil => intro st; exact Or.inl ⟨rfl, by simp⟩
  | cons g gs ih =>
    intro st
    simp only [searchLoopNoExit]
    by_cases hc : calculate_entropy C g > st.2
    · simp only [if_pos hc]
      rcases ih (g, calculate_entropy C g) with ⟨heq, hall⟩ |
        ⟨pre, post, hdec, hent, hlt, hpre, hall⟩
      · right
        rw [heq]
        refine ⟨[], gs, by simp, rfl, hc, ?_, ?_⟩
        · intro g1 hg1
          exact absurd hg1 (List.not_mem_nil g1)
        · intro g1 hg1
          rcases List.mem_cons.mp hg1 with h | h
          · subst h; exact le_refl _
          · exact hall g1 h
      · right
        refine ⟨g :: pre, post, by rw [List.cons_append, ← hdec], hent, lt_trans hc hlt, ?_, ?_⟩
        · intro g1 hg1
          rcases List.mem_cons.mp hg1 with h | h
          · subst h; exact hlt
          · exact hpre g1 h
        · intro g1 hg1
          rcases List.mem_cons.mp hg1 with h | h
          · subst h; exact le_of_lt hlt
          · exact hall g1 h
    · simp only [if_neg hc]
      have hgle : calculate_entropy C g ≤ st.2 := not_lt.mp hc
      rcases ih st with ⟨heq, hall⟩ | ⟨pre, post, hdec, hent, hlt, hpre, hall⟩
      · left
        refine ⟨heq, ?_⟩
        intro g1 hg1
        rcases List.mem_cons.mp hg1 with h | h
        · subst h; exact hgle
        · exact hall g1 h
      · right
        refine ⟨g :: pre, post, by rw [List.cons_append, ← hdec], hent, hlt, ?_, ?_⟩
        · intro g1 hg1
          rcases List.mem_cons.mp hg1 with h | h
          · subst h; exact lt_of_le_of_lt hgle hlt
          · exact hpre g1 h
        · intro g1 hg1
          rcases List.mem_cons.mp hg1 with h | h
          · subst h; exact le_trans hgle (le_of_lt hlt)
          · exact hall g1 h

/-- The early-exit loop only ever returns its initial best guess or one of
the guesses it iterated over. -/
theorem searchLoop_fst_mem (C : List (List Char)) (gs : List (List Char)) :
    ∀ st : List Char × ℝ, ∀ S : List (List Char), st.1 ∈ S →
      (∀ g ∈ gs, g ∈ S) → (searchLoop C gs st).1 ∈ S := by
  induction gs with
  | nil => intro st S h _; exact h
  | cons g gs ih =>
    intro st S hst hgs
    simp only [searchLoop]
    by_cases hc : calculate_entropy C g > st.2
    · simp only [if_pos hc]
      by_cases hfire :
          |(g, calculate_entropy C g).2 - Real.logb 2 (C.length : ℝ)| < 1e-10
      · rw [if_pos hfire]
        exact hgs g (List.mem_cons_self g gs)
      · rw [if_neg hfire]
        exact ih (g, calculate_entropy C g) S (hgs g (List.mem_cons_self g gs))
          fun g1 hg1 => hgs g1 (List.mem_cons_of_mem _ hg1)
    · simp only [if_neg hc]
      by_cases hfire : |st.2 - Real.logb 2 (C.length : ℝ)| < 1e-10
      · rw [if_pos hfire]
        exact hst
      · rw [if_neg hfire]
        exact ih st S hst fun g1 hg1 => hgs g1 (List.mem_cons_of_mem _ hg1)

/-- C3: with a non-empty candidate list, `find_best_guess` with the
early-exit break and the variant without it return the same `(guess,
entropy)` pair; in particular the two maximum entropy values agree within
the `1e-10` tolerance, and on a non-empty guess space the returned guess is
the first guess in the enumeration order of `all_codes` attaining the
maximum entropy (ties are broken by enumeration order). -/
theorem claim_C3 (C G : List (List Char)) (hC : C ≠ []) :
    find_best_guess C G = find_best_guess_noexit C G ∧
      ∀ p : List Char × ℝ, find_best_guess C G = some p →
        (∀ q : List Char × ℝ, find_best_guess_noexit C G = some q →
          |p.2 - q.2| < 1e-10) ∧
        (G ≠ [] → ∃ pre post, G = pre ++ p.1 :: post ∧
          calculate_entropy C p.1 = p.2 ∧
          (∀ g ∈ pre, calculate_entropy C g < p.2) ∧
          (∀ g ∈ G, calculate_entropy C g ≤ p.2)) := by
  obtain ⟨c, Ct, rfl⟩ := List.exists_cons_of_ne_nil hC
  have heq : find_best_guess (c :: Ct) G = find_best_guess_noexit (c :: Ct) G := by
    show some _ = some _
    congr 1
    exact searchLoop_eq_noexit (c :: Ct) G (c, -1) (Or.inl rfl)
  refine ⟨heq, ?_⟩
  intro p hp
  constructor
  · intro q hq
    have hpq : p = q := Option.some.inj ((heq ▸ hp).symm.trans hq)
    rw [hpq]
    norm_num
  · intro hG
    rw [heq] at hp
    have hp2 : searchLoopNoExit (c :: Ct) G (c, -1) = p := Option.some.inj hp
    rcases searchLoopNoExit_spec (c :: Ct) G (c, -1) with ⟨_, hall⟩ |
      ⟨pre, post, hdec, hent, _, hpre, hall⟩
    · exfalso
      obtain ⟨g0, Gt, rfl⟩ := List.exists_cons_of_ne_nil hG
      have h1 : calculate_entropy (c :: Ct) g0 ≤ -1 :=
        hall g0 (List.mem_cons_self g0 Gt)
      have h0 := entropy_nonneg (c :: Ct) g0
      linarith
    · rw [hp2] at hdec hent hpre hall
      exact ⟨pre, post, hdec, hent, hpre, hall⟩

theorem claim_C3_witness :
    ([['1', '2', '3', '4']] ≠ ([] : List (List Char))) ∧
      (find_best_guess [['1', '2', '3', '4']] [['5', '6', '7', '8']] =
          find_best_guess_noexit [['1', '2', '3', '4']] [['5', '6', '7', '8']] ∧
        ∀ p : List Char × ℝ,
          find_best_guess [['1', '2', '3', '4']] [['5', '6', '7', '8']] = some p →
          (∀ q : List Char × ℝ,
            find_best_guess_noexit [['1', '2', '3', '4']] [['5', '6', '7', '8']] =
              some q → |p.2 - q.2| < 1e-10) ∧
          ([['5', '6', '7', '8']] ≠ ([] : List (List Char)) →
            ∃ pre post, [['5', '6', '7', '8']] = pre ++ p.1 :: post ∧
              calculate_entropy [['1', '2', '3', '4']] p.1 = p.2 ∧
              (∀ g ∈ pre, calculate_entropy [['1', '2', '3', '4']] g < p.2) ∧
              (∀ g ∈ [['5', '6', '7', '8']],
                calculate_entropy [['1', '2', '3', '4']] g ≤ p.2))) :=
  ⟨by decide, claim_C3 [['1', '2', '3', '4']] [['5', '6', '7', '8']] (by decide)⟩

/-- C8: on non-empty candidates and a non-empty guess space the search is
total — it returns a value (the source's `possible_codes[0]` indexing and
`math.log2(len(possible_codes))` are both defined, so no error is reachable)
— and the returned guess is drawn from the guess space. -/
theorem claim_C8 (C G : List (List Char)) (hC : C ≠ []) (hG : G ≠ []) :
    ∃ p : List Char × ℝ, find_best_guess C G = some p ∧ p.1 ∈ G := by
  obtain ⟨c, Ct, rfl⟩ := List.exists_cons_of_ne_nil hC
  obtain ⟨g0, Gt, rfl⟩ := List.exists_cons_of_ne_nil hG
  refine ⟨searchLoop (c :: Ct) (g0 :: Gt) (c, -1), rfl, ?_⟩
  have he0 : calculate_entropy (c :: Ct) g0 > (c, (-1 : ℝ)).2 :=
    lt_of_lt_of_le (by norm_num) (entropy_nonneg _ _)
  simp only [searchLoop, if_pos he0]
  by_cases hfire :
      |(g0, calculate_entropy (c :: Ct) g0).2 -
        Real.logb 2 ((c :: Ct).length : ℝ)| < 1e-10
  · rw [if_pos hfire]
    exact List.mem_cons_self g0 Gt
  · rw [if_neg hfire]
    exact searchLoop_fst_mem (c :: Ct) Gt (g0, calculate_entropy (c :: Ct) g0)
      (g0 :: Gt) (List.mem_cons_self g0 Gt)
      fun g1 hg1 => List.mem_cons_of_mem _ hg1

theorem claim_C8_witness :
    ([['1', '2', '3', '4']] ≠ ([] : List (List Char)) ∧
        [['5', '6', '7', '8']] ≠ ([] : List (List Char))) ∧
      ∃ p : List Char × ℝ,
        find_best_guess [['1', '2', '3', '4']] [['5', '6', '7', '8']] = some p ∧
          p.1 ∈ [['5', '6', '7', '8']] :=
  ⟨⟨by decide, by decide⟩,
    claim_C8 [['1', '2', '3', '4']] [['5', '6', '7', '8']] (by decide) (by decide)⟩

/-- C10: with a single remaining candidate, every guess has entropy `0`,
which equals the ceiling `log2 1`, so the early exit fires on the very first
guess: the search returns the first element of the guess space with entropy
`0.0` — in general not the remaining candidate itself. -/
theorem claim_C10 (c g0 : List Char) (G1 : List (List Char)) :
    find_best_guess [c] (g0 :: G1) = some (g0, 0) := by
  have he : calculate_entropy [c] g0 = 0 := entropy_singleton c g0
  show some (searchLoop [c] (g0 :: G1) (c, -1)) = some (g0, 0)
  congr 1
  simp only [searchLoop, he]
  rw [if_pos (show (0 : ℝ) > (c, (-1 : ℝ)).2 by norm_num)]
  rw [if_pos (show |(g0, (0 : ℝ)).2 -
      Real.logb 2 (([c] : List (List Char)).length : ℝ)| < 1e-10 by
    norm_num [Real.logb_one])]

end ComputerGuessing
